import Mathlib

/-!
Shallow embedding of the GenSherlockLLM corpus pipeline.

Sources embedded:
* `src/data_prep/preprocess.py` — `clean_gutenberg`, `chunk_text`, the per-book
  record construction of `process_books`;
* `src/eval/overlap_check.py` — `basic_stats`, `detect_duplicates`.

Python strings are modelled as `List Char`; Python lists as Lean lists.
Machine integers are `Nat` (Python ints are unbounded; all quantities here are
non-negative in every observable run, see the comments at `chunkLoopF`).
-/

/-- Python regex `\s` / `str.split()` / `str.strip()` whitespace on ASCII text:
space, tab, newline, carriage return, vertical tab, form feed. -/
def isPySpace (c : Char) : Bool :=
  c = ' ' || c = '\t' || c = '\n' || c = '\r' || c = '\x0b' || c = '\x0c'

/-- Accumulator pass for `splitWs`: `acc` holds the (reversed) word currently
being scanned. -/
def splitWsAcc : List Char → List Char → List (List Char)
  | acc, [] => if acc = [] then [] else [acc.reverse]
  | acc, c :: r =>
    if isPySpace c then
      if acc = [] then splitWsAcc [] r else acc.reverse :: splitWsAcc [] r
    else splitWsAcc (c :: acc) r

/-- Python `str.split()` with no separator (preprocess.py line 101, overlap_check.py
line 32): split on maximal whitespace runs; tokens are nonempty and whitespace-free. -/
def splitWs (l : List Char) : List (List Char) := splitWsAcc [] l

/-- Python `" ".join(chunk_words)` (preprocess.py line 107). -/
def joinWords : List (List Char) → List Char
  | [] => []
  | [w] => w
  | w :: ws => w ++ ' ' :: joinWords ws

/-- One Python iteration of the `while start < len(words)` loop of `chunk_text`
(preprocess.py lines 104-109), as a fuel-indexed function.  `none` means the
fuel ran out with the loop still running; `chunk_text` below supplies enough
fuel that `none` is returned exactly when the Python loop never terminates.
Python's `start += max_words - overlap` can make `start` negative when
`overlap > max_words`; the `Nat`-truncated step `maxW - ov = 0` is observationally
identical there: in both semantics `start` stays below `len(words)` forever and
the call never returns, so no chunk list is ever produced. -/
def chunkLoopF (fuel : ℕ) (words : List (List Char)) (maxW minW ov start : ℕ) :
    Option (List (List Char)) :=
  match fuel with
  | 0 => none
  | fuel + 1 =>
    if start < words.length then
      -- chunk_words = words[start : start + max_words]
      let chunk_words := (words.drop start).take maxW
      match chunkLoopF fuel words maxW minW ov (start + (maxW - ov)) with
      | none => none
      | some rest =>
        some (if minW ≤ chunk_words.length then joinWords chunk_words :: rest else rest)
    else
      some []

/-- `chunk_text(text, max_words, min_words, overlap)` (preprocess.py lines 94-111).
When the Python loop terminates (it always does for `overlap < max_words`, and
trivially for wordless input), `words.length + 1` units of fuel reach the exit,
so the result is `some chunks`; `none` means the Python call never returns. -/
def chunk_text (text : List Char) (maxW minW ov : ℕ) : Option (List (List Char)) :=
  let words := splitWs text
  chunkLoopF (words.length + 1) words maxW minW ov 0

/-! ### clean_gutenberg (preprocess.py lines 55-90)

The two marker regexes
`\*\*\*\s*START\s+OF\s+(?:THE|THIS)\s+PROJECT\s+GUTENBERG\s+EBOOK.*?\*\*\*` (resp. `END`),
searched with `re.IGNORECASE | re.DOTALL`, are modelled by a hand-rolled matcher.
All quantifiers in the pattern are deterministic on inspection: the greedy `\s*`/`\s+`
are followed by letters (never whitespace), the alternation `(?:THE|THIS)\s+` tries
`THE` then `THIS` exactly as the backtracking engine does, and the lazy `.*?\*\*\*`
matches up to the first later occurrence of `***`.  `re.search` takes the leftmost
position at which the whole pattern matches. -/

/-- Python `text.replace("\r\n", "\n")`: left-to-right, non-overlapping. -/
def replaceCRLF : List Char → List Char
  | '\r' :: '\n' :: r => '\n' :: replaceCRLF r
  | c :: r => c :: replaceCRLF r
  | [] => []

/-- Line-ending normalization (preprocess.py line 61):
`text.replace("\r\n", "\n").replace("\r", "\n")`. -/
def normEol (l : List Char) : List Char :=
  (replaceCRLF l).map (fun c => if c = '\r' then '\n' else c)

/-- Match a literal word case-insensitively (the pattern is given lowercase);
returns the remaining input on success. -/
def matchLitCI : List Char → List Char → Option (List Char)
  | [], s => some s
  | _ :: _, [] => none
  | p :: ps, c :: cs => if c.toLower = p then matchLitCI ps cs else none

/-- Regex `\s*`: drop a maximal whitespace run. -/
def dropSpaces (s : List Char) : List Char := s.dropWhile isPySpace

/-- Regex `\s+`: at least one whitespace character, maximal munch. -/
def matchSpaces1 : List Char → Option (List Char)
  | [] => none
  | c :: cs => if isPySpace c then some (cs.dropWhile isPySpace) else none

/-- Regex `(?:THE|THIS)\s+`: the backtracking engine tries `THE` (with its
following `\s+`) first, then `THIS`. -/
def matchTheThis (s : List Char) : Option (List Char) :=
  match (matchLitCI ("the").toList s).bind matchSpaces1 with
  | some r => some r
  | none => (matchLitCI ("this").toList s).bind matchSpaces1

/-- Regex `\s*KW\s+OF\s+(?:THE|THIS)\s+PROJECT\s+GUTENBERG\s+EBOOK` where `KW` is
`START` or `END`; input starts right after the opening `***`. -/
def matchHeader (kw : List Char) (s : List Char) : Option (List Char) :=
  (matchLitCI kw (dropSpaces s)).bind fun r1 =>
  (matchSpaces1 r1).bind fun r2 =>
  (matchLitCI ("of").toList r2).bind fun r3 =>
  (matchSpaces1 r3).bind fun r4 =>
  (matchTheThis r4).bind fun r5 =>
  (matchLitCI ("project").toList r5).bind fun r6 =>
  (matchSpaces1 r6).bind fun r7 =>
  (matchLitCI ("gutenberg").toList r7).bind fun r8 =>
  (matchSpaces1 r8).bind fun r9 =>
  matchLitCI ("ebook").toList r9

/-- Regex `.*?\*\*\*` under DOTALL: find the first occurrence of `***`; returns
its offset and the input after it. -/
def findStars (s : List Char) : Option (ℕ × List Char) :=
  if s.take 3 = ['*', '*', '*'] then some (0, s.drop 3)
  else
    match s with
    | [] => none
    | _ :: t => (findStars t).map (fun p => (p.1 + 1, p.2))

/-- Try to match the whole marker pattern at the current position; on success
returns the input remaining after the match. -/
def matchMarkerAt (kw : List Char) (s : List Char) : Option (List Char) :=
  if s.take 3 = ['*', '*', '*'] then
    match matchHeader kw (s.drop 3) with
    | none => none
    | some r1 =>
      match findStars r1 with
      | none => none
      | some p => some p.2
  else none

/-- `re.search`: scan position by position; return the span `(match.start, match.end)`
of the leftmost match.  (On empty input the marker pattern cannot match: it
needs at least the six `*`; so the empty arm returns no match directly.) -/
def searchFrom (kw : List Char) : ℕ → List Char → Option (ℕ × ℕ)
  | _, [] => none
  | i, c :: t =>
    match matchMarkerAt kw (c :: t) with
    | some rest => some (i, i + ((c :: t).length - rest.length))
    | none => searchFrom kw (i + 1) t

/-- `re.search(pattern, text, re.IGNORECASE | re.DOTALL)` for the marker pattern
with keyword `kw` (`"start"` or `"end"`). -/
def searchMarker (kw : List Char) (text : List Char) : Option (ℕ × ℕ) :=
  searchFrom kw 0 text

/-- Python `words[a:b]` / `text[a:b]` for non-negative indices: clamped slice. -/
def pySliceNat (l : List Char) (a b : ℕ) : List Char := (l.drop a).take (b - a)

/-- Python `str.strip()`: remove leading and trailing whitespace. -/
def pyStrip (l : List Char) : List Char :=
  ((l.dropWhile isPySpace).reverse.dropWhile isPySpace).reverse

/-- `re.sub(r"_+", "", s)` (preprocess.py line 83): removing maximal runs of
underscores removes exactly every underscore character. -/
def removeUnderscores (l : List Char) : List Char := l.filter (fun c => decide (c ≠ '_'))

/-- State pass for `collapseWs`: `inRun` records whether the previous character
was whitespace (whose run already emitted its single `' '`). -/
def collapseWsAux : Bool → List Char → List Char
  | _, [] => []
  | inRun, c :: r =>
    if isPySpace c then
      if inRun then collapseWsAux true r else ' ' :: collapseWsAux true r
    else c :: collapseWsAux false r

/-- `re.sub(r"\s+", " ", s)` (preprocess.py line 84): each maximal whitespace run
becomes a single space. -/
def collapseWs (l : List Char) : List Char := collapseWsAux false l

/-- Regex `(?i)contents\s+I\.` at the current position. -/
def matchContents (s : List Char) : Option (List Char) :=
  (matchLitCI ("contents").toList s).bind fun r1 =>
  (matchSpaces1 r1).bind fun r2 =>
  (matchLitCI ("i").toList r2).bind fun r3 =>
  match r3 with
  | c :: r4 => if c = '.' then some r4 else none
  | [] => none

/-- Fuel-indexed scan for `removeContents`.  Every step consumes at least one
input character (a match consumes at least ten), so `l.length` units of fuel
always reach the end of the input and the fuel-exhausted arm is unreachable. -/
def removeContentsF : ℕ → List Char → List Char
  | 0, l => l
  | _, [] => []
  | fuel + 1, c :: r =>
    match matchContents (c :: r) with
    | some rest => removeContentsF fuel rest
    | none => c :: removeContentsF fuel r

/-- `re.sub(r"(?i)contents\s+I\.", "", s)` (preprocess.py line 88): remove every
(leftmost, non-overlapping) occurrence. -/
def removeContents (l : List Char) : List Char := removeContentsF l.length l

/-- Post-processing applied to the extracted story (preprocess.py lines 82-88):
strip underscores, collapse whitespace, trim, drop a `contents I.` fragment. -/
def postprocess (story : List Char) : List Char :=
  removeContents (pyStrip (collapseWs (removeUnderscores story)))

/-- The IEEE-754 double closest to 0.1 is `3602879701896397 / 2^55`; Python's
`int(0.1 * n)` is modelled as the floor of the exact product.  Rounding the
product to a double never moves it across an integer for `n < 2^52`, so the
model coincides with CPython there. -/
def pyInt01 (n : ℕ) : ℕ := 3602879701896397 * n / 36028797018963968

/-- The IEEE-754 double closest to 0.9 is `8106479329266893 / 2^53`; Python's
`int(0.9 * n)`, modelled as for `pyInt01`. -/
def pyInt09 (n : ℕ) : ℕ := 8106479329266893 * n / 9007199254740992

/-- Marker-or-fallback extraction (preprocess.py lines 68-80): the span between
the end of the first start-marker match and the start of the first end-marker
match (then `.strip()`), or the middle 80% of the text by character offset. -/
def extract_story (text : List Char) : List Char :=
  match searchMarker ("start").toList text, searchMarker ("end").toList text with
  | some s, some e => pyStrip (pySliceNat text s.2 e.1)
  | _, _ => pySliceNat text (pyInt01 text.length) (pyInt09 text.length)

/-- `clean_gutenberg(text)` (preprocess.py lines 55-90). -/
def clean_gutenberg (raw : List Char) : List Char :=
  postprocess (extract_story (normEol raw))

/-! ### process_books record construction (preprocess.py lines 115-128) -/

/-- Python `f"{path.stem}_{i}"`. -/
def mkChunkId (stem : List Char) (i : ℕ) : List Char := stem ++ '_' :: Nat.toDigits 10 i

/-- The per-book body of `process_books` (preprocess.py lines 117-123): clean,
chunk with the default parameters `(200, 30, 20)`, and build the persisted
`{"id": f"{stem}_{i}", "text": chunk}` records in emission order.  `none` would
mean the chunking loop never returned (it cannot for the default parameters). -/
def process_book (stem raw : List Char) : Option (List (List Char × List Char)) :=
  (chunk_text (clean_gutenberg raw) 200 30 20).map
    (fun chunks => chunks.enum.map (fun p => (mkChunkId stem p.1, p.2)))

/-! ### Dataset auditor (overlap_check.py lines 30-57) -/

/-- The statistics printed by `basic_stats` (overlap_check.py lines 30-42).
`avg_words` is Python's float `sum(word_counts) / total_chunks`, modelled
exactly in `ℚ`. -/
structure Stats where
  total_chunks : ℕ
  avg_words : ℚ
  min_words : ℕ
  max_words : ℕ
deriving DecidableEq, Repr

/-- The Python exceptions the auditor can actually raise. -/
inductive AuditErr where
  | zeroDivisionError
deriving DecidableEq, Repr

/-- `basic_stats(chunks)` (overlap_check.py lines 30-42).  On an empty chunk list
Python evaluates `sum(word_counts) / total_chunks` with `total_chunks == 0` and
raises `ZeroDivisionError`; `min`/`max` are only reached on nonempty input. -/
def basic_stats (chunks : List (List Char × List Char)) : Except AuditErr Stats :=
  let word_counts := chunks.map (fun p => (splitWs p.2).length)
  match word_counts with
  | [] => .error .zeroDivisionError
  | w :: ws =>
    .ok { total_chunks := chunks.length
          avg_words := ((w :: ws).map (fun k => (k : ℚ))).sum / (chunks.length : ℚ)
          min_words := ws.foldl min w
          max_words := ws.foldl max w }

/-- Accumulator pass for `firstOccs`: `seen` holds the keys already emitted. -/
def firstOccsAux (seen : List (List Char)) : List (List Char) → List (List Char)
  | [] => []
  | t :: ts =>
    if t ∈ seen then firstOccsAux seen ts else t :: firstOccsAux (t :: seen) ts

/-- Insertion-order deduplication: the keys of `collections.Counter(texts)` in
first-occurrence order. -/
def firstOccs (texts : List (List Char)) : List (List Char) := firstOccsAux [] texts

/-- `Counter(texts).items()`: each distinct text with its occurrence count, keys
in first-occurrence order. -/
def counterItems (texts : List (List Char)) : List (List Char × ℕ) :=
  (firstOccs texts).map (fun t => (t, texts.count t))

/-- The duplicate groups computed by `detect_duplicates` (overlap_check.py
lines 45-57): `[(text, count) for text, count in counter.items() if count > 1]`.
Only the display is truncated to `top_n`; this list is complete. -/
def detect_duplicates (chunks : List (List Char × List Char)) : List (List Char × ℕ) :=
  (counterItems (chunks.map Prod.snd)).filter (fun p => decide (1 < p.2))

/-! ### Specification predicates for the chunker claims -/

/-- Every chunk's whitespace word count lies in `[minW, maxW]`. -/
def chunkBoundsB (minW maxW : ℕ) (l : List (List Char)) : Bool :=
  l.all (fun ch => decide (minW ≤ (splitWs ch).length ∧ (splitWs ch).length ≤ maxW))

/-- For every pair of consecutively emitted chunks, the first `ov` words of the
later chunk equal the earlier chunk's words from position `maxW - ov` on. -/
def overlapPairsB (maxW ov : ℕ) (l : List (List Char)) : Bool :=
  (l.zip l.tail).all
    (fun p => decide ((splitWs p.2).take ov = (splitWs p.1).drop (maxW - ov)))

/-- The overlap property exactly as the claim words it, for every consecutive
pair: the first `ov` words of chunk `i+1` equal the last `ov` words of chunk `i`. -/
def claimLastOverlapB (ov : ℕ) (l : List (List Char)) : Bool :=
  (l.zip l.tail).all
    (fun p => decide ((splitWs p.2).take ov =
      (splitWs p.1).drop ((splitWs p.1).length - ov)))

/-- The claim's last-`ov`-words equality, required only for pairs whose earlier
chunk holds exactly `maxW` words (the amended form). -/
def lastOverlapPairsB (maxW ov : ℕ) (l : List (List Char)) : Bool :=
  (l.zip l.tail).all
    (fun p => decide ((splitWs p.1).length = maxW →
      (splitWs p.2).take ov = (splitWs p.1).drop ((splitWs p.1).length - ov)))

/-- Header text of the claim's start marker, between the opening `***` and the
book title. -/
def hdrS : List Char := (" START OF THE PROJECT GUTENBERG EBOOK").toList

/-- Header text of the claim's end marker. -/
def hdrE : List Char := (" END OF THE PROJECT GUTENBERG EBOOK").toList

/-- `*** START OF THE PROJECT GUTENBERG EBOOK X ***` for a book title `x`. -/
def startMarkerText (x : List Char) : List Char :=
  '*' :: '*' :: '*' :: (hdrS ++ ' ' :: x ++ ' ' :: '*' :: '*' :: '*' :: [])

/-- `*** END OF THE PROJECT GUTENBERG EBOOK X ***` for a book title `x`. -/
def endMarkerText (x : List Char) : List Char :=
  '*' :: '*' :: '*' :: (hdrE ++ ' ' :: x ++ ' ' :: '*' :: '*' :: '*' :: [])

/-- The claim's input shape
`*** START OF THE PROJECT GUTENBERG EBOOK X ***BODY*** END OF THE PROJECT GUTENBERG EBOOK X ***`. -/
def gutTemplate (x body : List Char) : List Char :=
  startMarkerText x ++ body ++ endMarkerText x

/-- The claim's "whitespace normalization": collapse whitespace runs to single
spaces and trim. -/
def wsNormalize (l : List Char) : List Char := pyStrip (collapseWs l)

example : chunk_text ("a b c d e f g h").toList 5 1 2 =
    some [("a b c d e").toList, ("d e f g h").toList, ("g h").toList] := by decide

example : chunk_text ("a b c").toList 2 1 2 = none := by decide

/-! ### splitWs facts -/

theorem splitWsAcc_tokens (l : List Char) :
    ∀ acc, (∀ c ∈ acc, isPySpace c = false) →
      ∀ w ∈ splitWsAcc acc l, w ≠ [] ∧ ∀ c ∈ w, isPySpace c = false := by
  induction l with
  | nil =>
    intro acc hacc w hw
    simp only [splitWsAcc] at hw
    split at hw
    · simp at hw
    · rename_i hne
      simp only [List.mem_singleton] at hw
      subst hw
      refine ⟨by simpa using hne, ?_⟩
      intro c hc
      exact hacc c (List.mem_reverse.mp hc)
  | cons c r ih =>
    intro acc hacc w hw
    simp only [splitWsAcc] at hw
    split at hw
    · split at hw
      · exact ih [] (by simp) w hw
      · rename_i hne
        rcases List.mem_cons.mp hw with h | h
        · subst h
          refine ⟨by simpa using hne, ?_⟩
          intro d hd
          exact hacc d (List.mem_reverse.mp hd)
        · exact ih [] (by simp) w h
    · rename_i hcsp
      refine ih (c :: acc) ?_ w hw
      intro d hd
      rcases List.mem_cons.mp hd with h | h
      · subst h; simpa using hcsp
      · exact hacc d h

/-- Tokens produced by `str.split()` are nonempty and whitespace-free. -/
theorem splitWs_tokens (l : List Char) :
    ∀ w ∈ splitWs l, w ≠ [] ∧ ∀ c ∈ w, isPySpace c = false :=
  splitWsAcc_tokens l [] (by simp)

theorem splitWsAcc_word (w : List Char) (hw : ∀ c ∈ w, isPySpace c = false) :
    ∀ acc rest, splitWsAcc acc (w ++ rest) = splitWsAcc (w.reverse ++ acc) rest := by
  induction w with
  | nil => intro acc rest; simp
  | cons c w' ih =>
    intro acc rest
    have hc : isPySpace c = false := hw c (by simp)
    simp only [List.cons_append, splitWsAcc, hc, Bool.false_eq_true, if_false,
      List.reverse_cons, List.append_assoc, List.singleton_append]
    exact ih (fun d hd => hw d (by simp [hd])) (c :: acc) rest

/-- `str.split()` is a left inverse of `" ".join` on lists of nonempty,
whitespace-free tokens. -/
theorem splitWs_joinWords : ∀ ws : List (List Char),
    (∀ w ∈ ws, w ≠ [] ∧ ∀ c ∈ w, isPySpace c = false) →
    splitWs (joinWords ws) = ws := by
  intro ws
  induction ws with
  | nil => intro _; rfl
  | cons w ws ih =>
    intro h
    obtain ⟨hne, hfree⟩ := h w (by simp)
    cases ws with
    | nil =>
      show splitWsAcc [] (joinWords [w]) = [w]
      have hw0 : joinWords [w] = w ++ [] := by simp [joinWords]
      rw [hw0, splitWsAcc_word w hfree [] []]
      simp [splitWsAcc, hne]
    | cons v vs =>
      show splitWsAcc [] (w ++ ' ' :: joinWords (v :: vs)) = w :: v :: vs
      rw [splitWsAcc_word w hfree [] (' ' :: joinWords (v :: vs))]
      have hsp : isPySpace ' ' = true := by decide
      simp only [splitWsAcc, hsp, if_true, List.append_nil, List.reverse_eq_nil_iff,
        hne, if_false, List.reverse_reverse]
      rw [show splitWsAcc [] (joinWords (v :: vs)) = splitWs (joinWords (v :: vs)) from rfl]
      rw [ih (fun u hu => h u (by simp [hu]))]

/-! ### chunk_text loop facts -/

theorem chunkLoopF_bounds (ws : List (List Char)) (maxW minW ov : ℕ)
    (hws : ∀ w ∈ ws, w ≠ [] ∧ ∀ c ∈ w, isPySpace c = false) :
    ∀ fuel start l, chunkLoopF fuel ws maxW minW ov start = some l →
      ∀ ch ∈ l, minW ≤ (splitWs ch).length ∧ (splitWs ch).length ≤ maxW := by
  intro fuel
  induction fuel with
  | zero => intro start l h; simp [chunkLoopF] at h
  | succ fuel ih =>
    intro start l h
    simp only [chunkLoopF] at h
    split at h
    · cases hrec : chunkLoopF fuel ws maxW minW ov (start + (maxW - ov)) with
      | none => rw [hrec] at h; exact absurd h (by simp)
      | some rest =>
        rw [hrec] at h
        simp only [Option.some.injEq] at h
        subst h
        intro ch hch
        have hcw : splitWs (joinWords ((ws.drop start).take maxW)) =
            (ws.drop start).take maxW := by
          refine splitWs_joinWords _ ?_
          intro w hw
          exact hws w (List.mem_of_mem_drop (List.mem_of_mem_take hw))
        split at hch
        · rename_i hemit
          rcases List.mem_cons.mp hch with h | h
          · subst h
            rw [hcw]
            refine ⟨hemit, ?_⟩
            rw [List.length_take]
            exact Nat.min_le_left _ _
          · exact ih _ rest hrec ch h
        · exact ih _ rest hrec ch hch
    · simp only [Option.some.injEq] at h
      subst h
      intro ch hch
      simp at hch

/-- Once the current window falls below `minW` words, no later window recovers
(window length is nonincreasing in `start`), so nothing further is emitted. -/
theorem chunkLoopF_below_min (ws : List (List Char)) (maxW minW ov : ℕ)
    (hov : ov < maxW) :
    ∀ fuel start l, chunkLoopF fuel ws maxW minW ov start = some l →
      min maxW (ws.length - start) < minW → l = [] := by
  intro fuel
  induction fuel with
  | zero => intro start l h; simp [chunkLoopF] at h
  | succ fuel ih =>
    intro start l h hwin
    simp only [chunkLoopF] at h
    split at h
    · cases hrec : chunkLoopF fuel ws maxW minW ov (start + (maxW - ov)) with
      | none => rw [hrec] at h; exact absurd h (by simp)
      | some rest =>
        rw [hrec] at h
        simp only [Option.some.injEq] at h
        subst h
        have hrest : rest = [] := by
          refine ih _ rest hrec ?_
          have : ws.length - (start + (maxW - ov)) ≤ ws.length - start := by omega
          omega
        have hlen : ((ws.drop start).take maxW).length = min maxW (ws.length - start) := by
          simp [List.length_take, List.length_drop]
        split
        · rename_i hemit
          rw [hlen] at hemit
          omega
        · exact hrest
    · simp only [Option.some.injEq] at h
      exact h.symm

/-- A nonempty result starts with the chunk of the current window, which was
emitted (so met the `minW` floor). -/
theorem chunkLoopF_head (ws : List (List Char)) (maxW minW ov : ℕ)
    (hov : ov < maxW) :
    ∀ fuel start l, chunkLoopF fuel ws maxW minW ov start = some l → l ≠ [] →
      start < ws.length ∧ minW ≤ ((ws.drop start).take maxW).length ∧
        l.head? = some (joinWords ((ws.drop start).take maxW)) := by
  intro fuel
  induction fuel with
  | zero => intro start l h; simp [chunkLoopF] at h
  | succ fuel ih =>
    intro start l h hne
    simp only [chunkLoopF] at h
    split at h
    · rename_i hlt
      cases hrec : chunkLoopF fuel ws maxW minW ov (start + (maxW - ov)) with
      | none => rw [hrec] at h; exact absurd h (by simp)
      | some rest =>
        rw [hrec] at h
        simp only [Option.some.injEq] at h
        subst h
        by_cases hemit : minW ≤ ((ws.drop start).take maxW).length
        · refine ⟨hlt, hemit, ?_⟩
          rw [if_pos hemit]
          rfl
        · have hlen : ((ws.drop start).take maxW).length = min maxW (ws.length - start) := by
            simp [List.length_take, List.length_drop]
          have hrest : rest = [] := by
            refine chunkLoopF_below_min ws maxW minW ov hov fuel _ rest hrec ?_
            rw [hlen] at hemit
            have : ws.length - (start + (maxW - ov)) ≤ ws.length - start := by omega
            omega
          rw [if_neg hemit, hrest] at hne
          exact absurd rfl hne
    · simp only [Option.some.injEq] at h
      exact absurd h.symm hne

/-- The first `ov` tokens of the next window are the current window's tokens
from position `maxW - ov` on. -/
theorem window_overlap (ws : List (List Char)) (maxW ov start : ℕ) (hov : ov ≤ maxW) :
    ((ws.drop (start + (maxW - ov))).take maxW).take ov =
      ((ws.drop start).take maxW).drop (maxW - ov) := by
  rw [List.take_take, List.drop_take, List.drop_drop]
  have h1 : min ov maxW = ov := Nat.min_eq_left hov
  have h2 : maxW - (maxW - ov) = ov := by omega
  rw [h1, h2]

/-- Consecutively emitted chunks overlap: the later one's first `ov` words are
the earlier one's words from position `maxW - ov` on. -/
theorem chunkLoopF_pairs (ws : List (List Char)) (maxW minW ov : ℕ)
    (hws : ∀ w ∈ ws, w ≠ [] ∧ ∀ c ∈ w, isPySpace c = false)
    (hov : ov < maxW) :
    ∀ fuel start l, chunkLoopF fuel ws maxW minW ov start = some l →
      ∀ p ∈ l.zip l.tail, (splitWs p.2).take ov = (splitWs p.1).drop (maxW - ov) := by
  intro fuel
  induction fuel with
  | zero => intro start l h; simp [chunkLoopF] at h
  | succ fuel ih =>
    intro start l h
    simp only [chunkLoopF] at h
    split at h
    · rename_i hlt
      cases hrec : chunkLoopF fuel ws maxW minW ov (start + (maxW - ov)) with
      | none => rw [hrec] at h; exact absurd h (by simp)
      | some rest =>
        rw [hrec] at h
        simp only [Option.some.injEq] at h
        subst h
        have hsplit : ∀ s : ℕ, splitWs (joinWords ((ws.drop s).take maxW)) =
            (ws.drop s).take maxW := by
          intro s
          refine splitWs_joinWords _ ?_
          intro w hw
          exact hws w (List.mem_of_mem_drop (List.mem_of_mem_take hw))
        split
        · intro p hp
          cases hr : rest with
          | nil => subst hr; simp at hp
          | cons b t =>
            subst hr
            have hzip : ((joinWords ((ws.drop start).take maxW)) :: b :: t).zip
                (((joinWords ((ws.drop start).take maxW)) :: b :: t).tail) =
                ((joinWords ((ws.drop start).take maxW)), b) :: ((b :: t).zip t) := by
              simp [List.zip]
            rw [hzip] at hp
            rcases List.mem_cons.mp hp with hpe | hpm
            · subst hpe
              have hb := chunkLoopF_head ws maxW minW ov hov fuel _ _ hrec (by simp)
              have hbv : b = joinWords ((ws.drop (start + (maxW - ov))).take maxW) := by
                have := hb.2.2
                simpa using this
              subst hbv
              show (splitWs (joinWords ((ws.drop (start + (maxW - ov))).take maxW))).take ov =
                (splitWs (joinWords ((ws.drop start).take maxW))).drop (maxW - ov)
              rw [hsplit, hsplit]
              exact window_overlap ws maxW ov start (Nat.le_of_lt hov)
            · exact ih _ _ hrec p (by simpa [List.zip] using hpm)
        · intro p hp
          exact ih _ _ hrec p hp
    · simp only [Option.some.injEq] at h
      subst h
      intro p hp
      simp at hp

/-- With a positive step the loop exits within `|words| - start + 1` iterations. -/
theorem chunkLoopF_terminates (ws : List (List Char)) (maxW minW ov : ℕ)
    (hov : ov < maxW) :
    ∀ fuel start, ws.length - start < fuel →
      ∃ l, chunkLoopF fuel ws maxW minW ov start = some l := by
  intro fuel
  induction fuel with
  | zero => intro start h; omega
  | succ fuel ih =>
    intro start hfuel
    by_cases hlt : start < ws.length
    · obtain ⟨l, hl⟩ := ih (start + (maxW - ov)) (by omega)
      refine ⟨if minW ≤ ((ws.drop start).take maxW).length then
          joinWords ((ws.drop start).take maxW) :: l else l, ?_⟩
      simp only [chunkLoopF, hlt, if_true, hl]
    · exact ⟨[], by simp [chunkLoopF, hlt]⟩

theorem chunk_text_eq_loop (text : List Char) (maxW minW ov : ℕ) :
    chunk_text text maxW minW ov =
      chunkLoopF ((splitWs text).length + 1) (splitWs text) maxW minW ov 0 := rfl

/-- One unfolding step of the chunking loop. -/
theorem chunkLoopF_succ (fuel : ℕ) (ws : List (List Char)) (maxW minW ov start : ℕ) :
    chunkLoopF (fuel + 1) ws maxW minW ov start =
      if start < ws.length then
        match chunkLoopF fuel ws maxW minW ov (start + (maxW - ov)) with
        | none => none
        | some rest =>
          some (if minW ≤ ((ws.drop start).take maxW).length
            then joinWords ((ws.drop start).take maxW) :: rest else rest)
      else some [] := rfl

/-- With `overlap ≥ max_words` the step `max_words - overlap` is not positive, so
`start` never reaches the word count and the loop runs forever: no amount of
fuel produces a result.  (In Python the step is zero or negative; either way
`start < len(words)` stays true forever.) -/
theorem chunkLoopF_diverges (ws : List (List Char)) (maxW minW ov : ℕ)
    (hov : maxW ≤ ov) :
    ∀ fuel start, start < ws.length → chunkLoopF fuel ws maxW minW ov start = none := by
  intro fuel
  induction fuel with
  | zero => intro start h; simp [chunkLoopF]
  | succ fuel ih =>
    intro start hlt
    have hstep : maxW - ov = 0 := Nat.sub_eq_zero_of_le hov
    simp only [chunkLoopF, hlt, if_true, hstep, Nat.add_zero, ih start hlt]

/-! ### Claim C1 -/

/-- C1, counterexample.  With `clean_text = "a b c d e f g h"` and the valid
parameters `max_words = 5`, `min_words = 1`, `overlap = 4` (`overlap < max_words`),
the step is `1` and every window (starts `0..7`) is emitted — no window is
overlap-skipped, so every consecutive pair is within the claim's scope.  Yet for
the pair `("f g h", "g h")` the first 4 words of the later chunk (`[g, h]`) are
not the last 4 words of the earlier one (`[f, g, h]`): the exact overlap
equality of the claim fails once windows shrink below `max_words`. -/
theorem c1_counterexample :
    chunk_text ("a b c d e f g h").toList 5 1 4 =
      some [("a b c d e").toList, ("b c d e f").toList, ("c d e f g").toList,
            ("d e f g h").toList, ("e f g h").toList, ("f g h").toList,
            ("g h").toList, ("h").toList] ∧
    claimLastOverlapB 4
      [("a b c d e").toList, ("b c d e f").toList, ("c d e f g").toList,
       ("d e f g h").toList, ("e f g h").toList, ("f g h").toList,
       ("g h").toList, ("h").toList] = false := by decide

/-- C1, amended.  For `overlap < max_words`, every emitted chunk has a word
count in `[min_words, max_words]`, and every consecutively emitted pair shares
context exactly: the later chunk's first `overlap` words are the earlier
chunk's words from position `max_words - overlap` on; when the earlier chunk
holds exactly `max_words` words these are precisely its last `overlap` words
(the claim's equality, which fails only for pairs whose earlier chunk is a
truncated final-region window, see `c1_counterexample`). -/
theorem c1_amended_chunk_contract (text : List Char) (maxW minW ov : ℕ)
    (l : List (List Char)) (hov : ov < maxW)
    (h : chunk_text text maxW minW ov = some l) :
    chunkBoundsB minW maxW l = true ∧ overlapPairsB maxW ov l = true ∧
      lastOverlapPairsB maxW ov l = true := by
  rw [chunk_text_eq_loop] at h
  have hws := splitWs_tokens text
  have hb := chunkLoopF_bounds (splitWs text) maxW minW ov hws _ 0 l h
  have hp := chunkLoopF_pairs (splitWs text) maxW minW ov hws hov _ 0 l h
  refine ⟨?_, ?_, ?_⟩
  · simp only [chunkBoundsB, List.all_eq_true, decide_eq_true_eq]
    exact hb
  · simp only [overlapPairsB, List.all_eq_true, decide_eq_true_eq]
    exact hp
  · simp only [lastOverlapPairsB, List.all_eq_true, decide_eq_true_eq]
    intro p hp2 hlen
    rw [hlen]
    exact hp p hp2

/-- C1 witness: the amended contract evaluated on `"a b c d e f g h"` with
`(max_words, min_words, overlap) = (5, 1, 2)`. -/
theorem c1_amended_chunk_contract_witness :
    chunkBoundsB 1 5 [("a b c d e").toList, ("d e f g h").toList, ("g h").toList] = true ∧
    overlapPairsB 5 2
      [("a b c d e").toList, ("d e f g h").toList, ("g h").toList] = true ∧
    lastOverlapPairsB 5 2
      [("a b c d e").toList, ("d e f g h").toList, ("g h").toList] = true :=
  c1_amended_chunk_contract ("a b c d e f g h").toList 5 1 2
    [("a b c d e").toList, ("d e f g h").toList, ("g h").toList]
    (by decide) (by decide)

/-! ### Claim C2 -/

/-- C2.  `chunk_text` performs no parameter validation at all: no `ConfigError`
exists anywhere in the repository.  With `overlap ≥ max_words` and at least one
word of input, `start += max_words - overlap` never advances past the word
count, so the Python loop never terminates: no amount of fuel makes the loop
model return, and `chunk_text` (which supplies fuel sufficient for every
terminating run) yields no result.  The claim's eager `ConfigError` and the
termination guarantee it implies are contradicted by the code. -/
theorem c2_no_validation_diverges (text : List Char) (maxW minW ov : ℕ)
    (hov : maxW ≤ ov) (hne : splitWs text ≠ []) :
    chunk_text text maxW minW ov = none ∧
      ∀ fuel, chunkLoopF fuel (splitWs text) maxW minW ov 0 = none := by
  have hpos : 0 < (splitWs text).length := List.length_pos.mpr hne
  exact ⟨chunkLoopF_diverges _ maxW minW ov hov _ 0 hpos,
    fun fuel => chunkLoopF_diverges _ maxW minW ov hov fuel 0 hpos⟩

/-- C2 witness: `chunk_text("a b c", max_words=2, min_words=1, overlap=2)` never
returns. -/
theorem c2_no_validation_diverges_witness :
    chunk_text ("a b c").toList 2 1 2 = none :=
  (c2_no_validation_diverges ("a b c").toList 2 1 2 (by decide) (by decide)).1

/-! ### Claim C4 -/

/-- C4, counterexample.  `"a b c d e"` has 5 words; with the valid parameters
`max_words = 5`, `min_words = 1`, `overlap = 4` the word count lies between
`min_words` and `max_words`, so the claim demands exactly one chunk holding all
five words.  The code instead re-enters the window four more times (step 1) and
emits five chunks. -/
theorem c4_counterexample :
    chunk_text ("a b c d e").toList 5 1 4 ≠ some [("a b c d e").toList] ∧
    chunk_text ("a b c d e").toList 5 1 4 =
      some [("a b c d e").toList, ("b c d e").toList, ("c d e").toList,
            ("d e").toList, ("e").toList] := by decide

/-- C4, amended.  Each edge case is quantified over its own parameter triple:
empty input yields zero chunks for every configuration whatsoever (no
hypothesis at all — the word list is empty, so the loop body never runs);
input below the `min_words` floor yields zero chunks for every valid
configuration (`overlap < max_words`, nothing else); and input whose word
count `w` satisfies `min_words ≤ w ≤ max_words` yields exactly one chunk
holding all `w` words provided additionally `overlap < min_words` (true of the
default configuration `200/30/20`).  Without that last proviso the window is
re-entered and several chunks are emitted, see `c4_counterexample`. -/
theorem c4_amended_edge_cases (t1 t2 : List Char)
    (maxW0 minW0 ov0 maxW1 minW1 ov1 maxW2 minW2 ov2 : ℕ)
    (hov1 : ov1 < maxW1) (h1 : (splitWs t1).length < minW1)
    (hov2 : ov2 < maxW2) (hov2m : ov2 < minW2)
    (h2a : minW2 ≤ (splitWs t2).length) (h2b : (splitWs t2).length ≤ maxW2) :
    chunk_text [] maxW0 minW0 ov0 = some [] ∧
    chunk_text t1 maxW1 minW1 ov1 = some [] ∧
    chunk_text t2 maxW2 minW2 ov2 = some [joinWords (splitWs t2)] := by
  refine ⟨?_, ?_, ?_⟩
  · rfl
  · rw [chunk_text_eq_loop]
    obtain ⟨l, hl⟩ := chunkLoopF_terminates (splitWs t1) maxW1 minW1 ov1 hov1
      ((splitWs t1).length + 1) 0 (by omega)
    have hl0 : l = [] := by
      refine chunkLoopF_below_min (splitWs t1) maxW1 minW1 ov1 hov1 _ 0 l hl ?_
      omega
    rw [hl, hl0]
  · rw [chunk_text_eq_loop]
    have hw1 : 1 ≤ (splitWs t2).length := by omega
    have hrec : chunkLoopF (splitWs t2).length (splitWs t2) maxW2 minW2 ov2
        (0 + (maxW2 - ov2)) = some [] := by
      obtain ⟨l, hl⟩ := chunkLoopF_terminates (splitWs t2) maxW2 minW2 ov2 hov2
        (splitWs t2).length (0 + (maxW2 - ov2)) (by omega)
      have hl0 : l = [] := by
        refine chunkLoopF_below_min (splitWs t2) maxW2 minW2 ov2 hov2 _ _ l hl ?_
        omega
      rw [hl, hl0]
    rw [chunkLoopF_succ, if_pos (by omega : 0 < (splitWs t2).length), hrec]
    simp only [List.drop_zero, List.take_of_length_le h2b, if_pos h2a]

/-- C4 witness: empty input at the invalid configuration `(2, 1, 2)` (the
empty case needs no validity), a 2-word input at `(5, 3, 4)` (a valid
configuration with `min_words ≤ overlap`, which the former statement excluded),
and a 30-word input at the default `(200, 30, 20)`. -/
theorem c4_amended_edge_cases_witness :
    chunk_text [] 2 1 2 = some [] ∧
    chunk_text ("a b").toList 5 3 4 = some [] ∧
    chunk_text ("a a a a a a a a a a a a a a a a a a a a a a a a a a a a a a").toList
        200 30 20 =
      some [joinWords (splitWs
        ("a a a a a a a a a a a a a a a a a a a a a a a a a a a a a a").toList)] :=
  c4_amended_edge_cases ("a b").toList
    ("a a a a a a a a a a a a a a a a a a a a a a a a a a a a a a").toList
    2 1 2 5 3 4 200 30 20
    (by decide) (by decide) (by decide) (by decide) (by decide) (by decide)

/-! ### Claim C3 -/

/-- C3, counterexample.  On zero chunks `basic_stats` evaluates
`sum(word_counts) / total_chunks` with `total_chunks == 0` and the numeric
`ZeroDivisionError` propagates; no `EmptyDatasetError` exists in the code. -/
theorem c3_counterexample :
    basic_stats [] = Except.error AuditErr.zeroDivisionError := rfl

/-- C3, amended.  The statistics pass fails on exactly the empty chunk set, and
the failure is the propagated numeric division-by-zero (Python's
`ZeroDivisionError` from `avg_words = sum(word_counts) / total_chunks`), not an
`EmptyDatasetError`. -/
theorem c3_amended_zero_division (chunks : List (List Char × List Char)) :
    basic_stats chunks = Except.error AuditErr.zeroDivisionError ↔ chunks = [] := by
  cases chunks with
  | nil => simp [basic_stats]
  | cons a l => simp [basic_stats]

/-! ### Claim C9 -/

theorem mem_firstOccsAux (l : List (List Char)) :
    ∀ seen x, x ∈ firstOccsAux seen l ↔ (x ∈ l ∧ x ∉ seen) := by
  induction l with
  | nil => intro seen x; simp [firstOccsAux]
  | cons t ts ih =>
    intro seen x
    simp only [firstOccsAux]
    split
    · rename_i hts
      rw [ih]
      constructor
      · rintro ⟨hx, hs⟩
        exact ⟨List.mem_cons_of_mem _ hx, hs⟩
      · rintro ⟨hx, hs⟩
        rcases List.mem_cons.mp hx with rfl | hx
        · exact absurd hts hs
        · exact ⟨hx, hs⟩
    · rename_i hts
      simp only [List.mem_cons]
      rw [ih]
      constructor
      · rintro (rfl | ⟨hx, hs⟩)
        · exact ⟨Or.inl rfl, hts⟩
        · exact ⟨Or.inr hx, fun hc => hs (List.mem_cons_of_mem _ hc)⟩
      · rintro ⟨(rfl | hx), hs⟩
        · exact Or.inl rfl
        · by_cases hxt : x = t
          · exact Or.inl hxt
          · refine Or.inr ⟨hx, ?_⟩
            intro hc
            rcases List.mem_cons.mp hc with h | h
            · exact hxt h
            · exact hs h

theorem mem_firstOccs (l : List (List Char)) (x : List Char) :
    x ∈ firstOccs l ↔ x ∈ l := by
  simp [firstOccs, mem_firstOccsAux]

theorem mem_counterItems (texts : List (List Char)) (t : List Char) (k : ℕ) :
    (t, k) ∈ counterItems texts ↔ (t ∈ texts ∧ k = texts.count t) := by
  simp only [counterItems, List.mem_map, Prod.mk.injEq]
  constructor
  · rintro ⟨u, hu, rfl, rfl⟩
    exact ⟨(mem_firstOccs texts u).mp hu, rfl⟩
  · rintro ⟨ht, rfl⟩
    exact ⟨t, (mem_firstOccs texts t).mpr ht, rfl, rfl⟩

/-- C9.  On the chunk set `[("a","x"), ("b","x"), ("c","y")]` the duplicate
report is exactly one group, for text `"x"` with occurrence count 2, and the
statistics are the literal word counts' min/max/mean (all three texts are one
word, so 1/1/1 over 3 chunks).  In general `detect_duplicates` enumerates
exactly the groups of text with occurrence count above 1, with correct counts
(only the printed preview is truncated to `top_n`). -/
theorem c9_duplicates_and_stats :
    detect_duplicates
        [(("a").toList, ("x").toList), (("b").toList, ("x").toList),
         (("c").toList, ("y").toList)] = [(("x").toList, 2)] ∧
    basic_stats
        [(("a").toList, ("x").toList), (("b").toList, ("x").toList),
         (("c").toList, ("y").toList)] =
      Except.ok { total_chunks := 3, avg_words := 1, min_words := 1, max_words := 1 } ∧
    ∀ (chunks : List (List Char × List Char)) (t : List Char) (k : ℕ),
      (t, k) ∈ detect_duplicates chunks ↔
        ((chunks.map Prod.snd).count t = k ∧ 1 < k) := by
  refine ⟨by decide, ?_, ?_⟩
  · have h0 : basic_stats
        [(("a").toList, ("x").toList), (("b").toList, ("x").toList),
         (("c").toList, ("y").toList)] =
        Except.ok ⟨3, (List.map (fun k => (k : ℚ)) [1, 1, 1]).sum / ((3 : ℕ) : ℚ), 1, 1⟩ := rfl
    rw [h0]
    simp only [Except.ok.injEq, Stats.mk.injEq]
    norm_num
  intro chunks t k
  simp only [detect_duplicates, List.mem_filter, mem_counterItems, decide_eq_true_eq]
  constructor
  · rintro ⟨⟨ht, rfl⟩, hk⟩
    exact ⟨rfl, hk⟩
  · rintro ⟨rfl, hk⟩
    exact ⟨⟨List.count_pos_iff.mp (by omega), rfl⟩, hk⟩

/-! ### Claim C8 -/

theorem enumFrom_ids (stem : List Char) :
    ∀ (chunks : List (List Char)) (n : ℕ),
      ((chunks.enumFrom n).map (fun p => (mkChunkId stem p.1, p.2))).map Prod.fst =
        (List.range' n chunks.length).map (mkChunkId stem) := by
  intro chunks
  induction chunks with
  | nil => intro n; rfl
  | cons c t ih =>
    intro n
    simp only [List.enumFrom, List.map_cons, List.length_cons, List.range',
      List.map]
    exact congrArg _ (ih (n + 1))

theorem mem_enumFrom_snd :
    ∀ (chunks : List (List Char)) (n : ℕ) (p : ℕ × List Char),
      p ∈ chunks.enumFrom n → p.2 ∈ chunks := by
  intro chunks
  induction chunks with
  | nil => intro n p hp; simp [List.enumFrom] at hp
  | cons c t ih =>
    intro n p hp
    simp only [List.enumFrom, List.mem_cons] at hp
    rcases hp with rfl | hp
    · simp
    · exact List.mem_cons_of_mem _ (ih (n + 1) p hp)

/-- C8.  The persisted records of one processed corpus carry the ids
`stem_0, stem_1, …, stem_(n-1)` in emission order — zero-based, strictly
increasing, gap-free, because `enumerate` numbers only the emitted chunks —
and every persisted record's text meets the `min_words = 30` floor. -/
theorem c8_chunk_ids_contiguous (stem raw : List Char)
    (recs : List (List Char × List Char))
    (h : process_book stem raw = some recs) :
    recs.map Prod.fst = (List.range recs.length).map (mkChunkId stem) ∧
    recs.all (fun r => decide (30 ≤ (splitWs r.2).length)) = true := by
  obtain ⟨chunks, hc, hrecs⟩ := Option.map_eq_some'.mp h
  subst hrecs
  have hlen : ((chunks.enum.map (fun p => (mkChunkId stem p.1, p.2)))).length =
      chunks.length := by
    simp [List.enum]
  constructor
  · rw [hlen]
    have := enumFrom_ids stem chunks 0
    rw [List.range_eq_range']
    exact this
  · rw [List.all_eq_true]
    intro r hr
    obtain ⟨p, hp, hpr⟩ := List.mem_map.mp hr
    have hmem : p.2 ∈ chunks := mem_enumFrom_snd chunks 0 p hp
    rw [chunk_text_eq_loop] at hc
    have hb := chunkLoopF_bounds (splitWs (clean_gutenberg raw)) 200 30 20
      (splitWs_tokens _) _ 0 chunks hc p.2 hmem
    subst hpr
    simpa using hb.1

/-- C8 witness: one processed 50-word marker-free document (the heuristic
fallback keeps its middle 80%, 40 words, one emitted chunk) carries exactly the
id `b_0`. -/
theorem c8_chunk_ids_contiguous_witness :
    ([((("b_0")).toList,
        ("w w w w w w w w w w w w w w w w w w w w w w w w w w w w w w w w w w w w w w w w").toList)]
      : List (List Char × List Char)).map Prod.fst =
      (List.range
        ([((("b_0")).toList,
            ("w w w w w w w w w w w w w w w w w w w w w w w w w w w w w w w w w w w w w w w w").toList)]
          : List (List Char × List Char)).length).map (mkChunkId ("b").toList) ∧
    ([((("b_0")).toList,
        ("w w w w w w w w w w w w w w w w w w w w w w w w w w w w w w w w w w w w w w w w").toList)]
      : List (List Char × List Char)).all
        (fun r => decide (30 ≤ (splitWs r.2).length)) = true :=
  c8_chunk_ids_contiguous ("b").toList
    ("w w w w w w w w w w w w w w w w w w w w w w w w w w w w w w w w w w w w w w w w w w w w w w w w w w").toList
    [((("b_0")).toList,
      ("w w w w w w w w w w w w w w w w w w w w w w w w w w w w w w w w w w w w w w w w").toList)]
    (by decide)

/-! ### Claim C6 -/

/-- C6.  When either marker is missing, the extracted content — prior to the
underscore/whitespace post-processing — is exactly the character range from the
10th to the 90th percentile of the text length.  The length bound is where the
exact-product model of the IEEE doubles `0.1`/`0.9` provably agrees with the
percentile offsets (every real text is far below it). -/
theorem c6_fallback_slice (text : List Char)
    (h : searchMarker ("start").toList text = none ∨
         searchMarker ("end").toList text = none)
    (hn : text.length ≤ 10 ^ 15) :
    extract_story text =
      (text.drop (text.length / 10)).take (9 * text.length / 10 - text.length / 10) := by
  have h01 : pyInt01 text.length = text.length / 10 := by unfold pyInt01; omega
  have h09 : pyInt09 text.length = 9 * text.length / 10 := by unfold pyInt09; omega
  rcases h with h | h
  · simp only [extract_story, h, pySliceNat, h01, h09]
  · cases hs : searchMarker ("start").toList text with
    | none => simp only [extract_story, hs, pySliceNat, h01, h09]
    | some s => simp only [extract_story, hs, h, pySliceNat, h01, h09]

set_option maxRecDepth 40000 in
/-- C6 witness: a 1000-character marker-free text is cut to the slice from
offset 100 to offset 900. -/
theorem c6_fallback_slice_witness :
    extract_story (List.replicate 1000 'a') =
      ((List.replicate 1000 'a').drop ((List.replicate 1000 'a').length / 10)).take
        (9 * (List.replicate 1000 'a').length / 10 -
          (List.replicate 1000 'a').length / 10) :=
  c6_fallback_slice (List.replicate 1000 'a') (Or.inl (by decide)) (by decide)

/-! ### Claim C10 -/

/-- C10.  When both markers match but the end-marker match starts at or before
the end of the start-marker match (the end pattern is searched from the start
of the text, not after the start marker), the slice `text[start_pos:end_pos]`
has non-positive extent: Python returns the empty string, nothing raises, and
`clean_gutenberg` returns the empty string after post-processing. -/
theorem c10_inverted_markers_empty (text : List Char) (s1 e1 s2 e2 : ℕ)
    (hs : searchMarker ("start").toList (normEol text) = some (s1, e1))
    (he : searchMarker ("end").toList (normEol text) = some (s2, e2))
    (hle : s2 ≤ e1) :
    clean_gutenberg text = [] := by
  unfold clean_gutenberg extract_story
  simp only [hs, he]
  have hslice : pySliceNat (normEol text) e1 s2 = [] := by
    unfold pySliceNat
    have h0 : s2 - e1 = 0 := by omega
    rw [h0]
    exact List.take_zero _
  rw [hslice]
  rfl

/-- C10 witness: a document whose end marker text precedes its start marker.
The start match spans `[44, 90)`, the end match spans `[0, 44)`, and the
extraction yields the empty string without raising. -/
theorem c10_inverted_markers_empty_witness :
    clean_gutenberg
      ("*** END OF THE PROJECT GUTENBERG EBOOK X ****** START OF THE PROJECT GUTENBERG EBOOK X *** body").toList
      = [] :=
  c10_inverted_markers_empty
    ("*** END OF THE PROJECT GUTENBERG EBOOK X ****** START OF THE PROJECT GUTENBERG EBOOK X *** body").toList
    44 90 0 44 (by decide) (by decide) (by decide)

/-! ### Claim C7 -/

theorem replaceCRLF_length_le (l : List Char) : (replaceCRLF l).length ≤ l.length := by
  induction l using replaceCRLF.induct with
  | case1 r ih =>
    rw [replaceCRLF.eq_1]
    simp only [List.length_cons]
    omega
  | case2 c r hne ih =>
    rw [replaceCRLF.eq_2 c r hne]
    simp only [List.length_cons]
    omega
  | case3 => rfl

theorem normEol_length_le (l : List Char) : (normEol l).length ≤ l.length := by
  unfold normEol
  rw [List.length_map]
  exact replaceCRLF_length_le l

theorem pyStrip_length_le (l : List Char) : (pyStrip l).length ≤ l.length := by
  unfold pyStrip
  rw [List.length_reverse]
  calc ((l.dropWhile isPySpace).reverse.dropWhile isPySpace).length
      ≤ (l.dropWhile isPySpace).reverse.length :=
        (List.dropWhile_sublist _).length_le
    _ = (l.dropWhile isPySpace).length := List.length_reverse _
    _ ≤ l.length := (List.dropWhile_sublist _).length_le

theorem pySliceNat_length_le (l : List Char) (a b : ℕ) :
    (pySliceNat l a b).length ≤ l.length := by
  unfold pySliceNat
  calc ((l.drop a).take (b - a)).length ≤ (l.drop a).length :=
        (List.take_sublist _ _).length_le
    _ ≤ l.length := (List.drop_sublist _ _).length_le

theorem extract_story_length_le (t : List Char) :
    (extract_story t).length ≤ t.length := by
  unfold extract_story
  cases searchMarker ("start").toList t with
  | none => exact pySliceNat_length_le t _ _
  | some s =>
    cases searchMarker ("end").toList t with
    | none => exact pySliceNat_length_le t _ _
    | some e =>
      exact Nat.le_trans (pyStrip_length_le _) (pySliceNat_length_le t _ _)

theorem collapseWsAux_length_le (l : List Char) :
    ∀ b, (collapseWsAux b l).length ≤ l.length := by
  induction l with
  | nil => intro b; simp [collapseWsAux]
  | cons c r ih =>
    intro b
    simp only [collapseWsAux]
    split
    · split
      · exact Nat.le_trans (ih true) (by simp)
      · simpa using ih true
    · simpa using ih false

theorem matchLitCI_length_le (p : List Char) :
    ∀ s r, matchLitCI p s = some r → r.length ≤ s.length := by
  induction p with
  | nil =>
    intro s r h
    simp only [matchLitCI, Option.some.injEq] at h
    subst h
    exact Nat.le_refl _
  | cons a ps ih =>
    intro s r h
    cases s with
    | nil => simp [matchLitCI] at h
    | cons c cs =>
      simp only [matchLitCI] at h
      split at h
      · exact Nat.le_trans (ih cs r h) (by simp)
      · exact absurd h (by simp)

theorem matchSpaces1_length_le (s r : List Char) (h : matchSpaces1 s = some r) :
    r.length ≤ s.length := by
  cases s with
  | nil => simp [matchSpaces1] at h
  | cons c cs =>
    simp only [matchSpaces1] at h
    split at h
    · simp only [Option.some.injEq] at h
      subst h
      exact Nat.le_trans (List.dropWhile_sublist _).length_le (by simp)
    · exact absurd h (by simp)

theorem matchContents_length_le (s r : List Char) (h : matchContents s = some r) :
    r.length ≤ s.length := by
  unfold matchContents at h
  simp only [Option.bind_eq_some] at h
  obtain ⟨r1, h1, r2, h2, r3, h3, hm⟩ := h
  have l1 := matchLitCI_length_le _ _ _ h1
  have l2 := matchSpaces1_length_le _ _ h2
  have l3 := matchLitCI_length_le _ _ _ h3
  split at hm
  · split at hm
    · simp only [Option.some.injEq] at hm
      subst hm
      simp only [List.length_cons] at l3
      omega
    · exact Option.noConfusion hm
  · exact Option.noConfusion hm


theorem removeContentsF_length_le :
    ∀ fuel l, (removeContentsF fuel l).length ≤ l.length := by
  intro fuel
  induction fuel with
  | zero =>
    intro l
    cases l with
    | nil => exact Nat.le_refl _
    | cons c r => exact Nat.le_refl _
  | succ fuel ih =>
    intro l
    cases l with
    | nil => exact Nat.le_refl _
    | cons c r =>
      cases hmc : matchContents (c :: r) with
      | some rest =>
        have hle := matchContents_length_le _ _ hmc
        simp only [removeContentsF, hmc]
        exact Nat.le_trans (ih rest) hle
      | none =>
        simp only [removeContentsF, hmc, List.length_cons]
        exact Nat.succ_le_succ (ih r)

theorem postprocess_length_le (story : List Char) :
    (postprocess story).length ≤ story.length := by
  unfold postprocess removeContents
  calc (removeContentsF (pyStrip (collapseWs (removeUnderscores story))).length
          (pyStrip (collapseWs (removeUnderscores story)))).length
      ≤ (pyStrip (collapseWs (removeUnderscores story))).length :=
        removeContentsF_length_le _ _
    _ ≤ (collapseWs (removeUnderscores story)).length := pyStrip_length_le _
    _ ≤ (removeUnderscores story).length := collapseWsAux_length_le _ false
    _ ≤ story.length := List.length_filter_le _ _

/-- C7.  `clean_gutenberg` is embedded as a total Lean function — it is defined,
deterministic and pure on every input (no exception path exists in its
semantics: slicing, searching and substitution are total in Python, and every
extraction branch is covered).  Quantitatively, the returned string never
exceeds the input in length, and degenerate input yields the empty string. -/
theorem c7_never_raises_and_bounded :
    (∀ raw : List Char, (clean_gutenberg raw).length ≤ raw.length) ∧
    clean_gutenberg [] = [] := by
  constructor
  · intro raw
    unfold clean_gutenberg
    calc (postprocess (extract_story (normEol raw))).length
        ≤ (extract_story (normEol raw)).length := postprocess_length_le _
      _ ≤ (normEol raw).length := extract_story_length_le _
      _ ≤ raw.length := normEol_length_le raw
  · rfl

/-! ### Claim C5 -/

theorem matchHeader_start_hdrS (r : List Char) :
    matchHeader ("start").toList (hdrS ++ r) = some r := rfl

theorem matchHeader_end_hdrE (r : List Char) :
    matchHeader ("end").toList (hdrE ++ r) = some r := rfl

theorem matchHeader_end_hdrS (r : List Char) :
    matchHeader ("end").toList (hdrS ++ r) = none := rfl

theorem matchHeader_end_of_head (b : Char) (t : List Char)
    (hsp : isPySpace b = false) (hb : b.toLower ≠ 'e') :
    matchHeader ("end").toList (b :: t) = none := by
  unfold matchHeader
  have hds : dropSpaces (b :: t) = b :: t := by
    unfold dropSpaces
    rw [List.dropWhile_cons_of_neg]
    simp [hsp]
  rw [hds]
  have hlit : matchLitCI ("end").toList (b :: t) = none := by
    show matchLitCI ('e' :: 'n' :: 'd' :: []) (b :: t) = none
    simp only [matchLitCI]
    rw [if_neg hb]
  rw [hlit]
  rfl

theorem matchMarkerAt_ne_head (kw : List Char) (c : Char) (t : List Char)
    (hc : c ≠ '*') : matchMarkerAt kw (c :: t) = none := by
  unfold matchMarkerAt
  rw [if_neg]
  intro h
  have h3 : (c :: t).take 3 = c :: t.take 2 := rfl
  rw [h3] at h
  exact hc (List.cons.inj h).1

theorem matchMarkerAt_ne_second (kw : List Char) (c : Char) (t : List Char)
    (hc : c ≠ '*') : matchMarkerAt kw ('*' :: c :: t) = none := by
  unfold matchMarkerAt
  rw [if_neg]
  intro h
  have h3 : ('*' :: c :: t).take 3 = '*' :: c :: t.take 1 := rfl
  rw [h3] at h
  exact hc (List.cons.inj (List.cons.inj h).2).1

theorem matchMarkerAt_ne_third (kw : List Char) (c : Char) (t : List Char)
    (hc : c ≠ '*') : matchMarkerAt kw ('*' :: '*' :: c :: t) = none := by
  unfold matchMarkerAt
  rw [if_neg]
  intro h
  have h3 : ('*' :: '*' :: c :: t).take 3 = '*' :: '*' :: c :: t.take 0 := rfl
  rw [h3] at h
  exact hc (List.cons.inj (List.cons.inj (List.cons.inj h).2).2).1

theorem searchFrom_cons_none (kw : List Char) (i : ℕ) (c : Char) (t : List Char)
    (h : matchMarkerAt kw (c :: t) = none) :
    searchFrom kw i (c :: t) = searchFrom kw (i + 1) t := by
  simp only [searchFrom, h]

theorem searchFrom_hit (kw : List Char) (i : ℕ) (s rest : List Char)
    (h : matchMarkerAt kw s = some rest) (hs : s ≠ []) :
    searchFrom kw i s = some (i, i + (s.length - rest.length)) := by
  cases s with
  | nil => exact absurd rfl hs
  | cons c t => simp only [searchFrom, h]

theorem searchFrom_skip (kw : List Char) (l : List Char)
    (hl : ∀ c ∈ l, c ≠ '*') :
    ∀ (i : ℕ) (r : List Char), searchFrom kw i (l ++ r) = searchFrom kw (i + l.length) r := by
  induction l with
  | nil => intro i r; simp
  | cons c l2 ih =>
    intro i r
    have hc : c ≠ '*' := hl c (by simp)
    rw [List.cons_append,
      searchFrom_cons_none kw i c (l2 ++ r) (matchMarkerAt_ne_head kw c _ hc),
      ih (fun d hd => hl d (by simp [hd])) (i + 1) r]
    congr 1
    simp only [List.length_cons]
    omega

theorem findStars_cons_ne (c : Char) (t : List Char) (hc : c ≠ '*') :
    findStars (c :: t) = (findStars t).map (fun p => (p.1 + 1, p.2)) := by
  have hcond : ¬ ((c :: t).take 3 = ['*', '*', '*']) := by
    intro h
    have h3 : (c :: t).take 3 = c :: t.take 2 := rfl
    rw [h3] at h
    exact hc (List.cons.inj h).1
  conv_lhs => rw [findStars.eq_def]
  rw [if_neg hcond]

theorem findStars_starfree (l : List Char) (hl : ∀ c ∈ l, c ≠ '*') :
    ∀ r : List Char, findStars (l ++ '*' :: '*' :: '*' :: r) = some (l.length, r) := by
  induction l with
  | nil => intro r; rfl
  | cons c l2 ih =>
    intro r
    have hc : c ≠ '*' := hl c (by simp)
    rw [List.cons_append, findStars_cons_ne c _ hc,
      ih (fun d hd => hl d (by simp [hd])) r]
    simp [List.length_cons]

theorem matchMarkerAt_stars (kw s : List Char) :
    matchMarkerAt kw ('*' :: '*' :: '*' :: s) =
      match matchHeader kw s with
      | none => none
      | some r1 =>
        match findStars r1 with
        | none => none
        | some p => some p.2 := rfl

/-- A whole marker (opening stars, header, title, closing stars) matches, and
the match consumes exactly the marker. -/
theorem matchMarkerAt_marker (kw hdr : List Char)
    (hhdr : ∀ r, matchHeader kw (hdr ++ r) = some r)
    (x : List Char) (hx : ∀ c ∈ x, c ≠ '*') (r : List Char) :
    matchMarkerAt kw
      (('*' :: '*' :: '*' :: (hdr ++ ' ' :: x ++ ' ' :: '*' :: '*' :: '*' :: [])) ++ r)
      = some r := by
  have hshape : ('*' :: '*' :: '*' :: (hdr ++ ' ' :: x ++ ' ' :: '*' :: '*' :: '*' :: [])) ++ r
      = '*' :: '*' :: '*' :: (hdr ++ ((' ' :: x ++ [' ']) ++ '*' :: '*' :: '*' :: r)) := by
    simp
  have hsf : ∀ c ∈ ' ' :: x ++ [' '], c ≠ '*' := by
    intro c hc
    rcases List.mem_cons.mp hc with rfl | hc2
    · decide
    rcases List.mem_append.mp hc2 with hcx | hcs
    · exact hx c hcx
    · simp only [List.mem_singleton] at hcs
      subst hcs
      decide
  rw [hshape, matchMarkerAt_stars, hhdr]
  show (match findStars ((' ' :: x ++ [' ']) ++ '*' :: '*' :: '*' :: r) with
        | none => none
        | some p => some p.2) = some r
  rw [findStars_starfree (' ' :: x ++ [' ']) hsf r]

theorem searchFrom_stars_skip (kw : List Char) (i : ℕ) (c : Char) (t : List Char)
    (hc : c ≠ '*')
    (hm : matchMarkerAt kw ('*' :: '*' :: '*' :: c :: t) = none) :
    searchFrom kw i ('*' :: '*' :: '*' :: c :: t) = searchFrom kw (i + 3) (c :: t) := by
  rw [searchFrom_cons_none _ _ _ _ hm,
    searchFrom_cons_none _ _ _ _ (matchMarkerAt_ne_third kw c t hc),
    searchFrom_cons_none _ _ _ _ (matchMarkerAt_ne_second kw c t hc)]

theorem searchMarker_start_tmpl (x body : List Char) (hx : ∀ c ∈ x, c ≠ '*') :
    searchMarker ("start").toList (gutTemplate x body) =
      some (0, (startMarkerText x).length) := by
  have hm : matchMarkerAt ("start").toList
      (startMarkerText x ++ (body ++ endMarkerText x)) = some (body ++ endMarkerText x) := by
    unfold startMarkerText
    exact matchMarkerAt_marker ("start").toList hdrS matchHeader_start_hdrS x hx _
  have hT : gutTemplate x body = startMarkerText x ++ (body ++ endMarkerText x) := by
    unfold gutTemplate
    rw [List.append_assoc]
  rw [searchMarker, hT, searchFrom_hit _ 0 _ _ hm (by unfold startMarkerText; simp)]
  have hlen : (startMarkerText x ++ (body ++ endMarkerText x)).length -
      (body ++ endMarkerText x).length = (startMarkerText x).length := by
    rw [List.length_append]
    omega
  rw [Nat.zero_add, hlen]

/-- The end-marker search steps over an opening `***` followed by the start
header (where the end header cannot match) and the header itself. -/
theorem searchFrom_end_hdrS (i : ℕ) (r : List Char) :
    searchFrom ("end").toList i ('*' :: '*' :: '*' :: (hdrS ++ r)) =
      searchFrom ("end").toList (i + 3 + hdrS.length) r := by
  have hm0 : matchMarkerAt ("end").toList ('*' :: '*' :: '*' :: (hdrS ++ r)) = none := by
    rw [matchMarkerAt_stars, matchHeader_end_hdrS]
  have hm1 : matchMarkerAt ("end").toList ('*' :: '*' :: (hdrS ++ r)) = none :=
    matchMarkerAt_ne_third _ ' ' _ (by decide)
  have hm2 : matchMarkerAt ("end").toList ('*' :: (hdrS ++ r)) = none :=
    matchMarkerAt_ne_second _ ' ' _ (by decide)
  rw [searchFrom_cons_none _ _ _ _ hm0, searchFrom_cons_none _ _ _ _ hm1,
    searchFrom_cons_none _ _ _ _ hm2,
    searchFrom_skip _ hdrS (by decide) _ r]

/-- The end-marker search on the template scans past the start marker and the
body (no earlier position matches) and finds the end marker exactly at offset
`|start marker| + |body|`. -/
theorem searchMarker_end_tmpl (x : List Char) (b : Char) (body' : List Char)
    (hx : ∀ c ∈ x, c ≠ '*')
    (hb_star : ∀ c ∈ b :: body', c ≠ '*')
    (hb_sp : isPySpace b = false) (hb_e : b.toLower ≠ 'e') :
    searchMarker ("end").toList (gutTemplate x (b :: body')) =
      some ((startMarkerText x).length + (b :: body').length,
        (gutTemplate x (b :: body')).length) := by
  have hbne : b ≠ '*' := hb_star b (by simp)
  have hT : gutTemplate x (b :: body') =
      '*' :: '*' :: '*' :: (hdrS ++ ((' ' :: x ++ [' ']) ++
        ('*' :: '*' :: '*' :: ((b :: body') ++ endMarkerText x)))) := by
    unfold gutTemplate startMarkerText
    simp
  have hsf2 : ∀ c ∈ ' ' :: x ++ [' '], c ≠ '*' := by
    intro c hc
    rcases List.mem_cons.mp hc with rfl | hc2
    · decide
    rcases List.mem_append.mp hc2 with hcx | hcs
    · exact hx c hcx
    · simp only [List.mem_singleton] at hcs
      subst hcs
      decide
  have hmb : matchMarkerAt ("end").toList
      ('*' :: '*' :: '*' :: (b :: (body' ++ endMarkerText x))) = none := by
    rw [matchMarkerAt_stars, matchHeader_end_of_head b _ hb_sp hb_e]
  have hmE : matchMarkerAt ("end").toList (endMarkerText x) = some [] := by
    have h := matchMarkerAt_marker ("end").toList hdrE matchHeader_end_hdrE x hx []
    unfold endMarkerText
    rwa [List.append_nil] at h
  rw [searchMarker, hT, searchFrom_end_hdrS 0 _, searchFrom_skip _ _ hsf2]
  rw [show (b :: body') ++ endMarkerText x = b :: (body' ++ endMarkerText x) from rfl]
  rw [searchFrom_stars_skip _ _ b (body' ++ endMarkerText x) hbne hmb]
  rw [show b :: (body' ++ endMarkerText x) = (b :: body') ++ endMarkerText x from rfl]
  rw [searchFrom_skip _ _ hb_star]
  rw [searchFrom_hit _ _ _ _ hmE (by unfold endMarkerText; simp)]
  simp only [Option.some.injEq, Prod.mk.injEq]
  constructor
  · simp only [startMarkerText, List.length_append, List.length_cons,
      List.length_singleton, List.length_nil]
    omega
  · simp only [startMarkerText, endMarkerText, List.length_append, List.length_cons,
      List.length_singleton, List.length_nil]
    omega

theorem replaceCRLF_eq_self (l : List Char) (h : ∀ c ∈ l, c ≠ '\r') :
    replaceCRLF l = l := by
  induction l using replaceCRLF.induct with
  | case1 r ih => exact absurd rfl (h '\r' (by simp))
  | case2 c r hne ih =>
    rw [replaceCRLF.eq_2 c r hne, ih (fun d hd => h d (by simp [hd]))]
  | case3 => rfl

theorem normEol_eq_self (l : List Char) (h : ∀ c ∈ l, c ≠ '\r') :
    normEol l = l := by
  unfold normEol
  rw [replaceCRLF_eq_self l h]
  induction l with
  | nil => rfl
  | cons c r ih =>
    simp only [List.map_cons]
    rw [if_neg (h c (by simp)), ih (fun d hd => h d (by simp [hd]))]

theorem pyStrip_eq_self (l : List Char)
    (hhead : ∀ b, l.head? = some b → isPySpace b = false)
    (hlast : ∀ b, l.getLast? = some b → isPySpace b = false) :
    pyStrip l = l := by
  unfold pyStrip
  have h1 : l.dropWhile isPySpace = l := by
    cases l with
    | nil => rfl
    | cons c t =>
      rw [List.dropWhile_cons_of_neg]
      simp [hhead c rfl]
  rw [h1]
  have h2 : l.reverse.dropWhile isPySpace = l.reverse := by
    cases hr : l.reverse with
    | nil => rfl
    | cons c t =>
      have hcl : l.getLast? = some c := by
        rw [← List.head?_reverse, hr]
        rfl
      rw [List.dropWhile_cons_of_neg]
      simp [hlast c hcl]
  rw [h2, List.reverse_reverse]

theorem mem_gutTemplate (c : Char) (x body : List Char) (hc : c ∈ gutTemplate x body) :
    c ∈ hdrS ∨ c ∈ hdrE ∨ c ∈ x ∨ c ∈ body ∨ c = '*' ∨ c = ' ' := by
  unfold gutTemplate startMarkerText endMarkerText at hc
  simp only [List.mem_append, List.mem_cons, List.mem_singleton, List.not_mem_nil,
    or_false] at hc
  tauto

theorem hdrS_no_cr : ∀ c ∈ hdrS, c ≠ '\r' := by decide

theorem hdrE_no_cr : ∀ c ∈ hdrE, c ≠ '\r' := by decide

/-- C5.  On text of the claim's form — a start marker, a body, and an end
marker built over a book title `x` — `clean_gutenberg` returns exactly the body
after whitespace normalization.  The hypotheses pin the placeholders to
sensible instantiations: the title and body contain no `*` (else they would be
read as marker fences), no carriage returns or underscores (which the claim's
"after whitespace normalization" would otherwise erase), the body is nonempty,
starts with a printable character other than `E` (else the end-header could
match inside the start marker's closing fence), is not whitespace-padded, and
does not trigger the table-of-contents heuristic. -/
theorem c5_marker_extraction (x body : List Char)
    (hx_star : ∀ c ∈ x, c ≠ '*') (hx_cr : ∀ c ∈ x, c ≠ '\r')
    (hb_star : ∀ c ∈ body, c ≠ '*') (hb_cr : ∀ c ∈ body, c ≠ '\r')
    (hb_und : ∀ c ∈ body, c ≠ '_')
    (hb_ne : body ≠ [])
    (hb_head : ∀ b, body.head? = some b → isPySpace b = false ∧ b.toLower ≠ 'e')
    (hb_last : ∀ b, body.getLast? = some b → isPySpace b = false)
    (hC : removeContents (wsNormalize body) = wsNormalize body) :
    clean_gutenberg (gutTemplate x body) = wsNormalize body := by
  obtain ⟨b, body', rfl⟩ : ∃ b body', body = b :: body' := by
    cases body with
    | nil => exact absurd rfl hb_ne
    | cons b t => exact ⟨b, t, rfl⟩
  obtain ⟨hb_sp, hb_e⟩ := hb_head b rfl
  have hcr : ∀ c ∈ gutTemplate x (b :: body'), c ≠ '\r' := by
    intro c hc
    rcases mem_gutTemplate c _ _ hc with h | h | h | h | h | h
    · exact hdrS_no_cr c h
    · exact hdrE_no_cr c h
    · exact hx_cr c h
    · exact hb_cr c h
    · subst h; decide
    · subst h; decide
  have hs := searchMarker_start_tmpl x (b :: body') hx_star
  have he := searchMarker_end_tmpl x b body' hx_star hb_star hb_sp hb_e
  have hslice : pySliceNat (gutTemplate x (b :: body')) (startMarkerText x).length
      ((startMarkerText x).length + (b :: body').length) = b :: body' := by
    unfold pySliceNat gutTemplate
    rw [List.append_assoc, List.drop_left, Nat.add_sub_cancel_left, List.take_left]
  unfold clean_gutenberg
  rw [normEol_eq_self _ hcr]
  unfold extract_story
  rw [hs, he]
  show postprocess (pyStrip (pySliceNat (gutTemplate x (b :: body'))
    (startMarkerText x).length ((startMarkerText x).length + (b :: body').length)))
      = wsNormalize (b :: body')
  rw [hslice, pyStrip_eq_self _ (fun d hd => (hb_head d hd).1) hb_last]
  unfold postprocess
  rw [show removeUnderscores (b :: body') = b :: body' from
    List.filter_eq_self.mpr (fun a ha => by simp [hb_und a ha])]
  exact hC

/-- C5 witness: the template instantiated with the title `SHERLOCK HOLMES` and
the body `It was a dark night.` extracts exactly the body. -/
theorem c5_marker_extraction_witness :
    clean_gutenberg
        (gutTemplate ("SHERLOCK HOLMES").toList ("It was a dark night.").toList)
      = wsNormalize ("It was a dark night.").toList :=
  c5_marker_extraction ("SHERLOCK HOLMES").toList ("It was a dark night.").toList
    (by decide) (by decide) (by decide) (by decide) (by decide) (by decide)
    (by
      intro bb hbb
      have h0 : (("It was a dark night.").toList).head? = some 'I' := rfl
      rw [h0] at hbb
      have hbi : bb = 'I' := (Option.some.inj hbb).symm
      subst hbi
      exact ⟨by decide, by decide⟩)
    (by
      intro bb hbb
      have h0 : (("It was a dark night.").toList).getLast? = some '.' := rfl
      rw [h0] at hbb
      have hbi : bb = '.' := (Option.some.inj hbb).symm
      subst hbi
      decide)
    (by decide)
